import Mathlib

/-!
Verification of the task-graph core of `lazyagent` (`src/state/tasks.rs`):
the `Task` / `TasksFile` data model, structural validation (unique ids,
referential integrity, acyclicity via Kahn elimination) and the derived
queries (ready set, blocked set, topological order).

The Rust `HashMap` iteration order that seeds the Kahn queue is modelled by
an explicit `init : List String` parameter; a run of the Rust code
corresponds to an `init` that is some permutation of `zeroKeys` (the set of
keys whose initial in-degree is zero).  Runtime panics (the
`adj_list.get_mut(..).unwrap()` on a missing key, and `usize` underflow of
`*degree -= 1`) are modelled by the `Option` layer: `none` means the Rust
code aborts instead of returning.  The Kahn loops take explicit fuel; the
public wrappers supply fuel computed from the graph, and the fuel is proved
sufficient, so the wrappers are the faithful model of the Rust functions.
-/

namespace LazyAgent

structure Task where
  id : String
  title : String
  completed : Bool
  depends : List String
deriving DecidableEq, Repr

structure TasksFile where
  tasks : List Task
deriving DecidableEq, Repr

/-- `TasksFile::get_task_by_id`: first task whose id matches. -/
def TasksFile.get_task_by_id (f : TasksFile) (id : String) : Option Task :=
  f.tasks.find? (fun t => t.id == id)

/-- `TasksFile::get_ready_tasks`: not completed, and every dependency looks
up to a completed task (a missing dependency counts as not satisfied). -/
def TasksFile.get_ready_tasks (f : TasksFile) : List Task :=
  f.tasks.filter (fun task =>
    !task.completed && task.depends.all (fun dep_id =>
      match f.get_task_by_id dep_id with
      | some t => t.completed
      | none => false))

/-- `TasksFile::get_blocked_tasks`: each not-completed task whose list of
unsatisfied dependencies (missing, or present but not completed) is
nonempty, paired with that list. -/
def TasksFile.get_blocked_tasks (f : TasksFile) : List (Task × List String) :=
  (f.tasks.filter (fun task => !task.completed)).filterMap (fun task =>
    let unsatisfied := task.depends.filter (fun dep_id =>
      match f.get_task_by_id dep_id with
      | some t => !t.completed
      | none => true)
    if unsatisfied.isEmpty then none else some (task, unsatisfied))

/-- Loop of `TasksFile::check_unique_ids`: a single pass keeping the set of
ids seen so far, failing at the first repeat. -/
def uniqueGo : List Task → List String → Except String Unit
  | [], _ => Except.ok ()
  | t :: ts, seen =>
    if t.id ∈ seen then Except.error ("Duplicate task ID: " ++ t.id)
    else uniqueGo ts (t.id :: seen)

/-- `TasksFile::check_unique_ids`. -/
def TasksFile.check_unique_ids (f : TasksFile) : Except String Unit :=
  uniqueGo f.tasks []

/-- The ids of the graph's tasks, in collection order. -/
def TasksFile.ids (f : TasksFile) : List String := f.tasks.map (fun t => t.id)

/-- Loop of `TasksFile::check_dependency_refs`: fails at the first task with
a dependency outside `valid`, naming the task and that first dependency. -/
def depsGo (valid : List String) : List Task → Except String Unit
  | [] => Except.ok ()
  | t :: ts =>
    match t.depends.find? (fun d => !(valid.contains d)) with
    | some d =>
        Except.error ("Task \x27" ++ t.id ++ "\x27 depends on non-existent task \x27"
          ++ d ++ "\x27")
    | none => depsGo valid ts

/-- `TasksFile::check_dependency_refs`. -/
def TasksFile.check_dependency_refs (f : TasksFile) : Except String Unit :=
  depsGo f.ids f.tasks

/-- The distinct task ids: key set of the Rust `in_degree` / `adj_list` maps. -/
def TasksFile.keysOf (f : TasksFile) : List String := f.ids.dedup

/-- Initial in-degree map: each `insert` overwrites, so the value for a key
is the `depends.len()` of the last task carrying that id. -/
def TasksFile.indeg0 (f : TasksFile) (k : String) : Nat :=
  match f.tasks.reverse.find? (fun t => t.id == k) with
  | some t => t.depends.length
  | none => 0

/-- Adjacency map after the build loop: the dependents of `k`, one entry per
occurrence of `k` in a task's `depends`, in task order. -/
def TasksFile.adj0 (f : TasksFile) (k : String) : List String :=
  (f.tasks.map (fun t => (t.depends.filter (fun d => d == k)).map (fun _ => t.id))).flatten

/-- Whether every dependency names some task: exactly when the Rust
adjacency-building loop's `adj_list.get_mut(dep_id).unwrap()` does not panic. -/
def TasksFile.allDepsExist (f : TasksFile) : Bool :=
  f.tasks.all (fun t => t.depends.all (fun d => f.ids.contains d))

/-- The keys of initial in-degree zero: the Rust initial queue is these, in
the `HashMap`'s (unspecified) iteration order. -/
def TasksFile.zeroKeys (f : TasksFile) : List String :=
  f.keysOf.filter (fun k => f.indeg0 k == 0)

/-- Inner loop over the dependents of a popped node: decrement each
dependent's degree, enqueueing it when the degree reaches zero.  `none`
models a panic: `in_degree.get_mut(..).unwrap()` on a missing key, or
`usize` underflow of `*degree -= 1`.  The queue is kept reversed relative to
the Rust `Vec` (head = next pop), so a Rust push is a cons. -/
def processDeps (keys : List String) :
    (String → Nat) → List String → List String → Option ((String → Nat) × List String)
  | indeg, queue, [] => some (indeg, queue)
  | indeg, queue, d :: ds =>
    if keys.contains d then
      if indeg d = 0 then none
      else
        processDeps keys (Function.update indeg d (indeg d - 1))
          (if indeg d - 1 = 0 then d :: queue else queue) ds
    else none

/-- Main loop of `TasksFile::topological_order`, with explicit fuel (the
wrapper supplies provably sufficient fuel).  Pops a node, appends its task
(when the lookup succeeds), and processes its dependents. -/
def kahnLoop (f : TasksFile) (adj : String → List String) (keys : List String) :
    Nat → (String → Nat) → List String → List Task → Option (List Task)
  | 0, _, _, _ => none
  | _ + 1, _, [], result => some result
  | fuel + 1, indeg, id :: rest, result =>
    let result2 :=
      match f.get_task_by_id id with
      | some t => result ++ [t]
      | none => result
    match processDeps keys indeg rest (adj id) with
    | none => none
    | some (indeg2, queue2) => kahnLoop f adj keys fuel indeg2 queue2 result2

/-- Main loop of `TasksFile::check_no_cycles`: same elimination, counting
pops instead of collecting tasks. -/
def kahnCount (keys : List String) (adj : String → List String) :
    Nat → (String → Nat) → List String → Nat → Option Nat
  | 0, _, _, _ => none
  | _ + 1, _, [], n => some n
  | fuel + 1, indeg, id :: rest, n =>
    match processDeps keys indeg rest (adj id) with
    | none => none
    | some (indeg2, queue2) => kahnCount keys adj fuel indeg2 queue2 (n + 1)

/-- Total of the in-degree map over the key set. -/
def sumDeg (keys : List String) (indeg : String → Nat) : Nat :=
  (keys.map indeg).sum

/-- Fuel that strictly dominates the loop measure `2 * sumDeg + |queue|`. -/
def TasksFile.kahnFuel (f : TasksFile) (init : List String) : Nat :=
  2 * sumDeg f.keysOf f.indeg0 + init.length + 1

/-- `TasksFile::topological_order`, parameterized by the initial queue
`init` (the `HashMap` iteration order of the zero-in-degree keys).  `none`
models a panic during the adjacency build or the elimination. -/
def TasksFile.topological_order (f : TasksFile) (init : List String) :
    Option (Except String (List Task)) :=
  if f.allDepsExist then
    match kahnLoop f f.adj0 f.keysOf (f.kahnFuel init) f.indeg0 init [] with
    | none => none
    | some result =>
      if result.length = f.tasks.length then some (Except.ok result)
      else some (Except.error "Circular dependency detected in tasks")
  else none

/-- `TasksFile::check_no_cycles`, parameterized like `topological_order`. -/
def TasksFile.check_no_cycles (f : TasksFile) (init : List String) :
    Option (Except String Unit) :=
  if f.allDepsExist then
    match kahnCount f.keysOf f.adj0 (f.kahnFuel init) f.indeg0 init 0 with
    | none => none
    | some processed =>
      if processed = f.tasks.length then some (Except.ok ())
      else some (Except.error "Circular dependency detected in tasks")
  else none

/-- `TasksFile::validate`: unique ids, then referential integrity, then the
cycle check, short-circuiting at the first failure. -/
def TasksFile.validate (f : TasksFile) (init : List String) :
    Option (Except String Unit) :=
  match f.check_unique_ids with
  | Except.error e => some (Except.error e)
  | Except.ok _ =>
    match f.check_dependency_refs with
    | Except.error e => some (Except.error e)
    | Except.ok _ => f.check_no_cycles init

/-- Dependency edge of the graph: `a` must complete before `b`; some task
with id `b` lists `a` among its `depends`. -/
def Edge (f : TasksFile) (a b : String) : Prop :=
  ∃ t, t ∈ f.tasks ∧ t.id = b ∧ a ∈ t.depends

/-- The dependency relation contains a cycle. -/
def hasCycle (f : TasksFile) : Prop :=
  ∃ x, Relation.TransGen (Edge f) x x

/-! ### Basic lemmas about lookups and ids -/

theorem mem_ids_iff {f : TasksFile} {k : String} :
    k ∈ f.ids ↔ ∃ t, t ∈ f.tasks ∧ t.id = k := by
  simp [TasksFile.ids, List.mem_map, eq_comm]

theorem get_task_by_id_spec {f : TasksFile} {k : String} {t : Task}
    (h : f.get_task_by_id k = some t) : t ∈ f.tasks ∧ t.id = k := by
  have h1 := List.find?_some h
  have h2 := List.mem_of_find?_eq_some h
  simp at h1
  exact ⟨h2, h1⟩

theorem get_task_by_id_isSome {f : TasksFile} {k : String} :
    (∃ t, f.get_task_by_id k = some t) ↔ k ∈ f.ids := by
  constructor
  · rintro ⟨t, ht⟩
    obtain ⟨h1, h2⟩ := get_task_by_id_spec ht
    exact mem_ids_iff.mpr ⟨t, h1, h2⟩
  · intro hk
    obtain ⟨t, ht, rfl⟩ := mem_ids_iff.mp hk
    have : (f.tasks.find? (fun u => u.id == t.id)).isSome := by
      rw [List.find?_isSome]
      exact ⟨t, ht, by simp⟩
    obtain ⟨u, hu⟩ := Option.isSome_iff_exists.mp this
    exact ⟨u, hu⟩

theorem get_task_by_id_eq_none {f : TasksFile} {k : String} :
    f.get_task_by_id k = none ↔ k ∉ f.ids := by
  constructor
  · intro h hk
    obtain ⟨t, ht⟩ := get_task_by_id_isSome.mpr hk
    rw [h] at ht
    exact Option.noConfusion ht
  · intro hk
    cases h : f.get_task_by_id k with
    | none => rfl
    | some t => exact absurd (get_task_by_id_isSome.mp ⟨t, h⟩) hk

theorem task_id_inj {f : TasksFile} (hU : f.ids.Nodup) {t u : Task}
    (ht : t ∈ f.tasks) (hu : u ∈ f.tasks) (h : t.id = u.id) : t = u :=
  List.inj_on_of_nodup_map hU ht hu h

theorem find?_id_eq {l : List Task} (hN : (l.map (fun t => t.id)).Nodup)
    {t : Task} (ht : t ∈ l) : l.find? (fun u => u.id == t.id) = some t := by
  cases h : l.find? (fun u => u.id == t.id) with
  | none =>
    rw [List.find?_eq_none] at h
    exact absurd (by simp : (t.id == t.id) = true) (h t ht)
  | some u =>
    have h1 := List.find?_some h
    have h2 := List.mem_of_find?_eq_some h
    simp at h1
    exact congrArg some (List.inj_on_of_nodup_map hN h2 ht h1)

theorem get_task_by_id_self {f : TasksFile} (hU : f.ids.Nodup) {t : Task}
    (ht : t ∈ f.tasks) : f.get_task_by_id t.id = some t :=
  find?_id_eq hU ht

theorem indeg0_eq {f : TasksFile} (hU : f.ids.Nodup) {t : Task}
    (ht : t ∈ f.tasks) : f.indeg0 t.id = t.depends.length := by
  have hN : (f.tasks.reverse.map (fun t => t.id)).Nodup := by
    have : f.tasks.reverse.map (fun t => t.id) = f.ids.reverse := by
      simp [TasksFile.ids]
    rw [this]
    exact List.nodup_reverse.mpr hU
  have := find?_id_eq hN (List.mem_reverse.mpr ht)
  simp only [TasksFile.indeg0, this]

theorem mem_keysOf_iff {f : TasksFile} {k : String} : k ∈ f.keysOf ↔ k ∈ f.ids :=
  List.mem_dedup

theorem keysOf_nodup (f : TasksFile) : f.keysOf.Nodup := List.nodup_dedup _

theorem mem_adj0_mem_ids {f : TasksFile} {k x : String}
    (h : x ∈ f.adj0 k) : x ∈ f.ids := by
  simp only [TasksFile.adj0, List.mem_flatten, List.mem_map] at h
  obtain ⟨inner, ⟨t, ht, rfl⟩, hx⟩ := h
  simp only [List.mem_map] at hx
  obtain ⟨d, _, rfl⟩ := hx
  exact mem_ids_iff.mpr ⟨t, ht, rfl⟩

theorem allDepsExist_iff {f : TasksFile} :
    f.allDepsExist = true ↔ ∀ t ∈ f.tasks, ∀ d ∈ t.depends, d ∈ f.ids := by
  simp [TasksFile.allDepsExist, List.all_eq_true]

/-! ### Characterization of `check_unique_ids` -/

theorem uniqueGo_ok_of {l : List Task} :
    ∀ seen : List String, (l.map (fun t => t.id)).Nodup →
    (∀ t ∈ l, t.id ∉ seen) → uniqueGo l seen = Except.ok () := by
  induction l with
  | nil => intro seen _ _; rfl
  | cons t ts ih =>
    intro seen hN hs
    simp only [List.map_cons, List.nodup_cons] at hN
    rw [uniqueGo, if_neg (hs t (List.mem_cons_self t ts))]
    refine ih (t.id :: seen) hN.2 ?_
    intro u hu
    simp only [List.mem_cons]
    push_neg
    refine ⟨?_, hs u (List.mem_cons_of_mem t hu)⟩
    intro h
    exact hN.1 (h ▸ List.mem_map_of_mem (fun t => t.id) hu)

theorem uniqueGo_ok_iff {l : List Task} :
    ∀ seen : List String, uniqueGo l seen = Except.ok () ↔
      ((l.map (fun t => t.id)).Nodup ∧ ∀ t ∈ l, t.id ∉ seen) := by
  induction l with
  | nil => intro seen; simp [uniqueGo]
  | cons t ts ih =>
    intro seen
    constructor
    · intro h
      rw [uniqueGo] at h
      by_cases hmem : t.id ∈ seen
      · rw [if_pos hmem] at h; exact Except.noConfusion h
      · rw [if_neg hmem] at h
        obtain ⟨hN, hs⟩ := (ih (t.id :: seen)).mp h
        have hts : t.id ∉ ts.map (fun t => t.id) := by
          intro hc
          obtain ⟨u, hu, he⟩ := List.mem_map.mp hc
          exact hs u hu (by rw [he]; exact List.mem_cons_self _ _)
        refine ⟨by simp [List.nodup_cons, hts, hN], ?_⟩
        intro u hu
        rcases List.mem_cons.mp hu with rfl | hu'
        · exact hmem
        · intro hc
          exact hs u hu' (List.mem_cons_of_mem _ hc)
    · rintro ⟨hN, hs⟩
      exact uniqueGo_ok_of seen hN hs

theorem check_unique_ids_ok_iff {f : TasksFile} :
    f.check_unique_ids = Except.ok () ↔ f.ids.Nodup := by
  rw [TasksFile.check_unique_ids, uniqueGo_ok_iff]
  simp [TasksFile.ids]

theorem uniqueGo_error {t : Task} {post : List Task} :
    ∀ pre : List Task, ∀ seen : List String,
    (pre.map (fun u => u.id) ++ seen).Nodup →
    t.id ∈ pre.map (fun u => u.id) ++ seen →
    uniqueGo (pre ++ t :: post) seen = Except.error ("Duplicate task ID: " ++ t.id) := by
  intro pre
  induction pre with
  | nil =>
    intro seen _ hmem
    simp only [List.map_nil, List.nil_append] at hmem
    rw [List.nil_append, uniqueGo, if_pos hmem]
  | cons u pre ih =>
    intro seen hN hmem
    have hu : u.id ∉ seen := by
      simp only [List.map_cons, List.cons_append, List.nodup_cons] at hN
      intro hc
      exact hN.1 (List.mem_append_right _ hc)
    rw [List.cons_append, uniqueGo, if_neg hu]
    have hperm : (pre.map (fun u => u.id) ++ (u.id :: seen)).Perm
        ((u.id :: pre.map (fun u => u.id)) ++ seen) := by
      simpa using (@List.perm_middle String u.id (pre.map (fun u => u.id)) seen).symm
    refine ih (u.id :: seen) (hperm.nodup_iff.mpr (by simpa using hN)) ?_
    have : t.id ∈ (u.id :: pre.map (fun u => u.id)) ++ seen := by simpa using hmem
    exact (hperm.mem_iff).mpr this

/-! ### Characterization of `check_dependency_refs` -/

theorem depsGo_ok_iff {valid : List String} :
    ∀ l : List Task, depsGo valid l = Except.ok () ↔
      ∀ t ∈ l, ∀ d ∈ t.depends, d ∈ valid := by
  intro l
  induction l with
  | nil => simp [depsGo]
  | cons t ts ih =>
    rw [depsGo]
    cases hf : t.depends.find? (fun d => !(valid.contains d)) with
    | some d =>
      simp only [Except.error.injEq]
      constructor
      · intro h; exact Except.noConfusion h
      · intro h
        exfalso
        have h1 := List.find?_some hf
        have h2 := List.mem_of_find?_eq_some hf
        simp only [Bool.not_eq_true', ← Bool.not_eq_true, List.elem_iff] at h1
        exact h1 (h t (List.mem_cons_self t ts) d h2)
    | none =>
      rw [List.find?_eq_none] at hf
      rw [ih]
      constructor
      · intro h u hu d hd
        rcases List.mem_cons.mp hu with rfl | hu'
        · have := hf d hd
          simpa [List.elem_iff] using this
        · exact h u hu' d hd
      · intro h u hu d hd
        exact h u (List.mem_cons_of_mem t hu) d hd

theorem check_dependency_refs_ok_iff {f : TasksFile} :
    f.check_dependency_refs = Except.ok () ↔ f.allDepsExist = true := by
  rw [TasksFile.check_dependency_refs, depsGo_ok_iff, allDepsExist_iff]

theorem depsGo_error {valid : List String} {t : Task} {post : List Task}
    {dpre dpost : List String} {d : String}
    (hdeps : t.depends = dpre ++ d :: dpost)
    (hdpre : ∀ x ∈ dpre, x ∈ valid) (hd : d ∉ valid) :
    ∀ pre : List Task, (∀ u ∈ pre, ∀ x ∈ u.depends, x ∈ valid) →
    depsGo valid (pre ++ t :: post) =
      Except.error ("Task \x27" ++ t.id ++ "\x27 depends on non-existent task \x27"
        ++ d ++ "\x27") := by
  intro pre
  induction pre with
  | nil =>
    intro _
    rw [List.nil_append, depsGo, hdeps]
    have : (dpre ++ d :: dpost).find? (fun x => !(valid.contains x)) = some d := by
      rw [List.find?_append]
      have h1 : dpre.find? (fun x => !(valid.contains x)) = none := by
        rw [List.find?_eq_none]
        intro x hx
        simp [List.elem_iff, hdpre x hx]
      rw [h1]
      simp [List.find?_cons, List.elem_iff, hd]
    rw [this]
  | cons u pre ih =>
    intro hpre
    rw [List.cons_append, depsGo]
    have h1 : u.depends.find? (fun x => !(valid.contains x)) = none := by
      rw [List.find?_eq_none]
      intro x hx
      simp [List.elem_iff, hpre u (List.mem_cons_self u pre) x hx]
    rw [h1]
    exact ih (fun v hv => hpre v (List.mem_cons_of_mem u hv))

/-! ### Counting helpers for the Kahn invariant -/

/-- Number of dependencies of `t` (with multiplicity) whose id has not been
popped yet: the abstract value of the in-degree map entry of `t.id`. -/
def unpoppedCount (popped : List String) (t : Task) : Nat :=
  (t.depends.filter (fun d => !(popped.contains d))).length

theorem unpoppedCount_nil (t : Task) : unpoppedCount [] t = t.depends.length := by
  simp [unpoppedCount]

theorem unpoppedCount_eq_zero_iff {popped : List String} {t : Task} :
    unpoppedCount popped t = 0 ↔ ∀ d ∈ t.depends, d ∈ popped := by
  simp [unpoppedCount, List.length_eq_zero, List.filter_eq_nil_iff, List.elem_iff]

theorem unpoppedCount_split {popped : List String} {id : String} (hid : id ∉ popped)
    (t : Task) :
    unpoppedCount popped t = unpoppedCount (popped ++ [id]) t + t.depends.count id := by
  simp only [unpoppedCount]
  induction t.depends with
  | nil => simp
  | cons a l ih =>
    by_cases ha : a = id
    · subst ha
      have hc1 : (popped.contains a) = false := by
        by_contra hc
        rw [Bool.not_eq_false, List.elem_iff] at hc
        exact hid hc
      have hc2 : ((popped ++ [a]).contains a) = true := by
        rw [List.elem_iff]
        exact List.mem_append_right _ (List.mem_singleton.mpr rfl)
      rw [List.filter_cons, List.filter_cons, List.count_cons, hc1, hc2]
      rw [if_pos (by simp : (!false) = true), if_neg (by simp : ¬ ((!true) = true))]
      rw [if_pos (by simp : (a == a) = true)]
      simp only [List.length_cons]
      omega
    · have h2 : ((popped ++ [id]).contains a) = (popped.contains a) := by
        rcases h : popped.contains a with _ | _
        · rw [← Bool.not_eq_true] at h ⊢
          rw [List.elem_iff] at h ⊢
          simp [List.mem_append, h, ha]
        · rw [List.elem_iff] at h ⊢
          exact List.mem_append_left _ h
      rw [List.filter_cons, List.filter_cons, List.count_cons, h2]
      rw [if_neg (by simp [ha] : ¬ ((a == id) = true))]
      rcases h : popped.contains a with _ | _
      · rw [if_pos (by simp : (!false) = true), if_pos (by simp : (!false) = true)]
        simp only [List.length_cons]
        omega
      · rw [if_neg (by simp : ¬ ((!true) = true)), if_neg (by simp : ¬ ((!true) = true))]
        omega

theorem mem_adj0_iff {f : TasksFile} {k x : String} :
    x ∈ f.adj0 k ↔ ∃ t, t ∈ f.tasks ∧ t.id = x ∧ k ∈ t.depends := by
  simp only [TasksFile.adj0, List.mem_flatten, List.mem_map]
  constructor
  · rintro ⟨inner, ⟨t, ht, rfl⟩, hx⟩
    simp only [List.mem_map] at hx
    obtain ⟨d, hd, rfl⟩ := hx
    have := List.of_mem_filter hd
    simp at this
    exact ⟨t, ht, rfl, this ▸ List.mem_of_mem_filter hd⟩
  · rintro ⟨t, ht, rfl, hk⟩
    refine ⟨(t.depends.filter (fun d => d == k)).map (fun _ => t.id), ⟨t, ht, rfl⟩, ?_⟩
    exact List.mem_map.mpr ⟨k, List.mem_filter.mpr ⟨hk, by simp⟩, rfl⟩

theorem count_adjList {k : String} :
    ∀ {l : List Task}, (l.map (fun t => t.id)).Nodup →
    ∀ {u : Task}, u ∈ l →
    ((l.map (fun t => (t.depends.filter (fun d => d == k)).map (fun _ => t.id))).flatten).count u.id
      = u.depends.count k := by
  intro l
  induction l with
  | nil => intro _ u hu; exact absurd hu (List.not_mem_nil u)
  | cons t ts ih =>
    intro hN u hu
    simp only [List.map_cons, List.flatten_cons, List.count_append]
    simp only [List.map_cons, List.nodup_cons] at hN
    rcases List.mem_cons.mp hu with rfl | hu'
    · have h1 : ((u.depends.filter (fun d => d == k)).map (fun _ => u.id)).count u.id
          = u.depends.count k := by
        rw [List.map_const', List.count_replicate_self, List.count,
          List.countP_eq_length_filter]
      have h2 : ((ts.map (fun t =>
          (t.depends.filter (fun d => d == k)).map (fun _ => t.id))).flatten).count u.id = 0 := by
        rw [List.count_eq_zero]
        intro hc
        simp only [List.mem_flatten, List.mem_map] at hc
        obtain ⟨inner, ⟨v, hv, rfl⟩, hx⟩ := hc
        simp only [List.mem_map] at hx
        obtain ⟨d, _, he⟩ := hx
        exact hN.1 (he ▸ List.mem_map_of_mem (fun t => t.id) hv)
      rw [h1, h2]
      omega
    · have h1 : ((t.depends.filter (fun d => d == k)).map (fun _ => t.id)).count u.id = 0 := by
        rw [List.count_eq_zero]
        intro hc
        simp only [List.mem_map] at hc
        obtain ⟨d, _, he⟩ := hc
        exact hN.1 (he ▸ List.mem_map_of_mem (fun t => t.id) hu')
      rw [h1, ih hN.2 hu']
      simp

theorem count_adj0 {f : TasksFile} (hU : f.ids.Nodup) {u : Task} (hu : u ∈ f.tasks)
    (k : String) : (f.adj0 k).count u.id = u.depends.count k :=
  count_adjList hU hu

/-! ### The measure `2 * sumDeg + |queue|` -/

theorem map_update_of_not_mem {l : List String} {d : String} (hd : d ∉ l)
    (indeg : String → Nat) (v : Nat) :
    l.map (Function.update indeg d v) = l.map indeg := by
  apply List.map_congr_left
  intro x hx
  have hxd : x ≠ d := fun h => hd (h ▸ hx)
  exact Function.update_noteq hxd v indeg

theorem sumDeg_update {keys : List String} (hN : keys.Nodup) {d : String}
    (hd : d ∈ keys) (indeg : String → Nat) (v : Nat) :
    sumDeg keys (Function.update indeg d v) + indeg d = sumDeg keys indeg + v := by
  induction keys with
  | nil => exact absurd hd (List.not_mem_nil d)
  | cons k ks ih =>
    simp only [List.nodup_cons] at hN
    rcases List.mem_cons.mp hd with rfl | hd'
    · simp only [sumDeg, List.map_cons, List.sum_cons, Function.update_same,
        map_update_of_not_mem hN.1]
      omega
    · have hk : k ≠ d := by rintro rfl; exact hN.1 hd'
      simp only [sumDeg, List.map_cons, List.sum_cons,
        Function.update_noteq hk v indeg]
      have := ih hN.2 hd'
      simp only [sumDeg] at this
      omega

theorem processDeps_measure {keys : List String} (hN : keys.Nodup) :
    ∀ todo indeg queue indeg2 queue2,
    processDeps keys indeg queue todo = some (indeg2, queue2) →
    2 * sumDeg keys indeg2 + queue2.length + todo.length
      ≤ 2 * sumDeg keys indeg + queue.length := by
  intro todo
  induction todo with
  | nil =>
    intro indeg queue indeg2 queue2 h
    simp only [processDeps] at h
    injection h with h
    injection h with h1 h2
    subst h1; subst h2
    simp
  | cons d ds ih =>
    intro indeg queue indeg2 queue2 h
    rw [processDeps] at h
    by_cases hc : keys.contains d = true
    · rw [if_pos hc] at h
      by_cases h0 : indeg d = 0
      · rw [if_pos h0] at h; exact Option.noConfusion h
      · rw [if_neg h0] at h
        have hmem : d ∈ keys := List.elem_iff.mp hc
        have hupd := sumDeg_update hN hmem indeg (indeg d - 1)
        have hih := ih _ _ _ _ h
        have hql : (if indeg d - 1 = 0 then d :: queue else queue).length ≤ queue.length + 1 := by
          split <;> simp
        have h1 : 1 ≤ indeg d := Nat.one_le_iff_ne_zero.mpr h0
        simp only [List.length_cons] at hih ⊢
        omega
    · rw [if_neg hc] at h; exact Option.noConfusion h

theorem processDeps_queue_sub {keys : List String} :
    ∀ todo indeg queue indeg2 queue2,
    processDeps keys indeg queue todo = some (indeg2, queue2) →
    ∀ x ∈ queue2, x ∈ queue ∨ x ∈ keys := by
  intro todo
  induction todo with
  | nil =>
    intro indeg queue indeg2 queue2 h x hx
    simp only [processDeps] at h
    injection h with h
    injection h with h1 h2
    subst h2
    exact Or.inl hx
  | cons d ds ih =>
    intro indeg queue indeg2 queue2 h x hx
    rw [processDeps] at h
    by_cases hc : keys.contains d = true
    · rw [if_pos hc] at h
      by_cases h0 : indeg d = 0
      · rw [if_pos h0] at h; exact Option.noConfusion h
      · rw [if_neg h0] at h
        rcases ih _ _ _ _ h x hx with hq | hk
        · by_cases hz : indeg d - 1 = 0
          · rw [if_pos hz] at hq
            rcases List.mem_cons.mp hq with rfl | hq'
            · exact Or.inr (List.elem_iff.mp hc)
            · exact Or.inl hq'
          · rw [if_neg hz] at hq
            exact Or.inl hq
        · exact Or.inr hk
    · rw [if_neg hc] at h; exact Option.noConfusion h

/-! ### Invariant of the inner dependent-processing loop -/

/-- State invariant while the dependents `todo` of the node just popped are
being processed; `popped2` is the list of popped ids including that node.
Each key's degree equals its not-yet-popped dependencies plus the pending
decrements left in `todo`, and the queue holds exactly the unpopped keys of
degree zero. -/
structure MidInv (f : TasksFile) (popped2 todo : List String)
    (indeg : String → Nat) (queue : List String) : Prop where
  nodup : (popped2 ++ queue).Nodup
  queue_ids : ∀ x ∈ queue, x ∈ f.ids
  todo_ids : ∀ x ∈ todo, x ∈ f.ids
  todo_unpopped : ∀ x ∈ todo, x ∉ popped2
  deg : ∀ u ∈ f.tasks, indeg u.id = unpoppedCount popped2 u + todo.count u.id
  queue_iff : ∀ u ∈ f.tasks, (u.id ∈ queue ↔ u.id ∉ popped2 ∧ indeg u.id = 0)

theorem processDeps_ok {f : TasksFile} (hU : f.ids.Nodup) {popped2 : List String} :
    ∀ todo indeg queue, MidInv f popped2 todo indeg queue →
    ∃ indeg2 queue2,
      processDeps f.keysOf indeg queue todo = some (indeg2, queue2) ∧
      MidInv f popped2 [] indeg2 queue2 := by
  intro todo
  induction todo with
  | nil =>
    intro indeg queue inv
    exact ⟨indeg, queue, rfl, { inv with todo_ids := by simp, todo_unpopped := by simp }⟩
  | cons d ds ih =>
    intro indeg queue inv
    have hdid : d ∈ f.ids := inv.todo_ids d (List.mem_cons_self d ds)
    have hdk : f.keysOf.contains d = true := by
      rw [List.elem_iff]
      exact mem_keysOf_iff.mpr hdid
    obtain ⟨ud, hud, hudid⟩ := mem_ids_iff.mp hdid
    have dnp : d ∉ popped2 := inv.todo_unpopped d (List.mem_cons_self d ds)
    have hdeg : indeg d = unpoppedCount popped2 ud + ds.count d + 1 := by
      have := inv.deg ud hud
      rw [hudid] at this
      rw [this, List.count_cons, if_pos (by simp : (d == d) = true)]
      omega
    have hne0 : ¬ indeg d = 0 := by omega
    have hnq : d ∉ queue := by
      intro hc
      have := (inv.queue_iff ud hud).mp (hudid ▸ hc)
      rw [hudid] at this
      exact hne0 this.2
    have inv2 : MidInv f popped2 ds (Function.update indeg d (indeg d - 1))
        (if indeg d - 1 = 0 then d :: queue else queue) := by
      refine ⟨?_, ?_, ?_, ?_, ?_, ?_⟩
      · by_cases hz : indeg d - 1 = 0
        · rw [if_pos hz]
          refine (List.perm_middle).nodup_iff.mpr ?_
          exact List.nodup_cons.mpr ⟨by simp [dnp, hnq], inv.nodup⟩
        · rw [if_neg hz]; exact inv.nodup
      · intro x hx
        by_cases hz : indeg d - 1 = 0
        · rw [if_pos hz] at hx
          rcases List.mem_cons.mp hx with rfl | hx'
          · exact hdid
          · exact inv.queue_ids x hx'
        · rw [if_neg hz] at hx; exact inv.queue_ids x hx
      · intro x hx; exact inv.todo_ids x (List.mem_cons_of_mem d hx)
      · intro x hx; exact inv.todo_unpopped x (List.mem_cons_of_mem d hx)
      · intro u hu
        by_cases he : u.id = d
        · have : u = ud := task_id_inj hU hu hud (he.trans hudid.symm)
          subst this
          rw [hudid, Function.update_same, hdeg]
          omega
        · rw [Function.update_noteq he, inv.deg u hu, List.count_cons,
            if_neg (by simpa using fun h => he h.symm)]
          omega
      · intro u hu
        by_cases he : u.id = d
        · have : u = ud := task_id_inj hU hu hud (he.trans hudid.symm)
          subst this
          rw [hudid, Function.update_same]
          by_cases hz : indeg d - 1 = 0
          · rw [if_pos hz]
            simp only [List.mem_cons, true_or, true_iff]
            exact ⟨dnp, hz⟩
          · rw [if_neg hz]
            constructor
            · intro hc; exact absurd hc hnq
            · intro hc; exact absurd hc.2 hz
        · have hmq : u.id ∈ (if indeg d - 1 = 0 then d :: queue else queue) ↔ u.id ∈ queue := by
            by_cases hz : indeg d - 1 = 0
            · rw [if_pos hz]
              simp only [List.mem_cons]
              constructor
              · rintro (hc | hc)
                · exact absurd hc he
                · exact hc
              · exact Or.inr
            · rw [if_neg hz]
          rw [hmq, Function.update_noteq he]
          exact inv.queue_iff u hu
    obtain ⟨indeg2, queue2, hrun, hfin⟩ := ih _ _ inv2
    refine ⟨indeg2, queue2, ?_, hfin⟩
    rw [processDeps, if_pos hdk, if_neg hne0]
    exact hrun

/-! ### Invariant of the outer Kahn loop -/

/-- State invariant of the elimination loop between pops: `res` is the list
of collected tasks (whose ids are the popped ids, in pop order). -/
structure LoopInv (f : TasksFile) (indeg : String → Nat) (queue : List String)
    (res : List Task) : Prop where
  nodup : (res.map (fun t => t.id) ++ queue).Nodup
  queue_ids : ∀ x ∈ queue, x ∈ f.ids
  res_tasks : ∀ t ∈ res, t ∈ f.tasks
  deg : ∀ u ∈ f.tasks, indeg u.id = unpoppedCount (res.map (fun t => t.id)) u
  queue_iff : ∀ u ∈ f.tasks,
      (u.id ∈ queue ↔ u.id ∉ res.map (fun t => t.id) ∧ indeg u.id = 0)
  closed : ∀ u ∈ f.tasks, u.id ∈ res.map (fun t => t.id) →
      ∀ d ∈ u.depends, d ∈ res.map (fun t => t.id)
  ordered : ∀ i (h : i < res.length), ∀ d ∈ (res.get ⟨i, h⟩).depends,
      d ∈ (res.take i).map (fun t => t.id)

theorem loopInv_round {f : TasksFile} (hU : f.ids.Nodup)
    {indeg : String → Nat} {id : String} {rest : List String} {res : List Task}
    (inv : LoopInv f indeg (id :: rest) res) :
    ∃ t, f.get_task_by_id id = some t ∧ t.id = id ∧ t ∈ f.tasks ∧
    ∃ indeg2 queue2,
      processDeps f.keysOf indeg rest (f.adj0 id) = some (indeg2, queue2) ∧
      LoopInv f indeg2 queue2 (res ++ [t]) ∧
      2 * sumDeg f.keysOf indeg2 + queue2.length
        < 2 * sumDeg f.keysOf indeg + (id :: rest).length := by
  have hid : id ∈ f.ids := inv.queue_ids id (List.mem_cons_self id rest)
  obtain ⟨t, ht⟩ := get_task_by_id_isSome.mpr hid
  obtain ⟨htm, hti⟩ := get_task_by_id_spec ht
  refine ⟨t, ht, hti, htm, ?_⟩
  have hq := (inv.queue_iff t htm).mp (by rw [hti]; exact List.mem_cons_self id rest)
  rw [hti] at hq
  have hidnp : id ∉ res.map (fun u => u.id) := hq.1
  have hdeg0 : indeg id = 0 := hq.2
  have hidrest : id ∉ rest := by
    have h2 : (id :: rest).Nodup := inv.nodup.of_append_right
    exact (List.nodup_cons.mp h2).1
  have hclosed_t : ∀ d ∈ t.depends, d ∈ res.map (fun u => u.id) := by
    have h1 := inv.deg t htm
    rw [hti, hdeg0] at h1
    exact unpoppedCount_eq_zero_iff.mp h1.symm
  have inv2 : MidInv f (res.map (fun u => u.id) ++ [id]) (f.adj0 id) indeg rest := by
    refine ⟨?_, ?_, ?_, ?_, ?_, ?_⟩
    · rw [← List.append_cons]
      exact inv.nodup
    · intro x hx; exact inv.queue_ids x (List.mem_cons_of_mem id hx)
    · intro x hx; exact mem_adj0_mem_ids hx
    · intro x hx hc
      obtain ⟨tx, htx, htxid, hidin⟩ := mem_adj0_iff.mp hx
      rcases List.mem_append.mp hc with hc1 | hc1
      · exact hidnp (inv.closed tx htx (htxid ▸ hc1) id hidin)
      · rw [List.mem_singleton] at hc1
        subst hc1
        have : tx = t := task_id_inj hU htx htm (htxid.trans hti.symm)
        subst this
        exact hidnp (hclosed_t x hidin)
    · intro u hu
      rw [inv.deg u hu, unpoppedCount_split hidnp u, count_adj0 hU hu id]
    · intro u hu
      by_cases he : u.id = id
      · constructor
        · intro hc; rw [he] at hc; exact absurd hc hidrest
        · intro hc
          exact absurd (List.mem_append_right _ (List.mem_singleton.mpr he)) hc.1
      · have h1 := inv.queue_iff u hu
        have h2 : u.id ∈ id :: rest ↔ u.id ∈ rest := by
          simp [List.mem_cons, he]
        rw [h2] at h1
        rw [h1]
        constructor
        · rintro ⟨hnp, hz⟩
          refine ⟨?_, hz⟩
          intro hc
          rcases List.mem_append.mp hc with hc1 | hc1
          · exact hnp hc1
          · exact he (List.mem_singleton.mp hc1)
        · rintro ⟨hnp, hz⟩
          exact ⟨fun hc => hnp (List.mem_append_left _ hc), hz⟩
  obtain ⟨indeg2, queue2, hrun, hfin⟩ := processDeps_ok hU _ _ _ inv2
  have hmap : (res ++ [t]).map (fun u => u.id) = res.map (fun u => u.id) ++ [id] := by
    simp [hti]
  refine ⟨indeg2, queue2, hrun, ?_, ?_⟩
  · refine ⟨?_, hfin.queue_ids, ?_, ?_, ?_, ?_, ?_⟩
    · rw [hmap]; exact hfin.nodup
    · intro u hu
      rcases List.mem_append.mp hu with h1 | h1
      · exact inv.res_tasks u h1
      · rw [List.mem_singleton] at h1; exact h1 ▸ htm
    · intro u hu
      rw [hmap]
      have := hfin.deg u hu
      simpa using this
    · intro u hu
      rw [hmap]
      have h1 := hfin.queue_iff u hu
      exact h1
    · intro u hu hup d hd
      rw [hmap] at hup ⊢
      rcases List.mem_append.mp hup with h1 | h1
      · exact List.mem_append_left _ (inv.closed u hu h1 d hd)
      · rw [List.mem_singleton] at h1
        have : u = t := task_id_inj hU hu htm (h1.trans hti.symm)
        subst this
        exact List.mem_append_left _ (hclosed_t d hd)
    · intro i h d hd
      by_cases hi : i < res.length
      · have hget : (res ++ [t]).get ⟨i, h⟩ = res.get ⟨i, hi⟩ := by
          rw [List.get_eq_getElem, List.get_eq_getElem]
          exact List.getElem_append_left hi
        rw [hget] at hd
        rw [List.take_append_of_le_length (Nat.le_of_lt hi)]
        exact inv.ordered i hi d hd
      · have hieq : i = res.length := by
          have := h
          simp only [List.length_append, List.length_cons, List.length_nil] at this
          omega
        subst hieq
        have hget : (res ++ [t]).get ⟨res.length, h⟩ = t := by
          rw [List.get_eq_getElem]
          exact List.getElem_concat_length res t res.length rfl _
        rw [hget] at hd
        rw [List.take_left]
        exact hclosed_t d hd
  · have hm := processDeps_measure (keysOf_nodup f) _ _ _ _ _ hrun
    simp only [List.length_cons]
    omega

theorem kahnLoop_run {f : TasksFile} (hU : f.ids.Nodup) :
    ∀ fuel indeg queue res,
    2 * sumDeg f.keysOf indeg + queue.length < fuel →
    LoopInv f indeg queue res →
    ∃ ext indeg2,
      kahnLoop f f.adj0 f.keysOf fuel indeg queue res = some (res ++ ext) ∧
      LoopInv f indeg2 [] (res ++ ext) := by
  intro fuel
  induction fuel with
  | zero =>
    intro indeg queue res hlt _
    exact absurd hlt (by omega)
  | succ fuel ih =>
    intro indeg queue res hlt inv
    cases queue with
    | nil =>
      refine ⟨[], indeg, ?_, ?_⟩
      · rw [kahnLoop, List.append_nil]
      · rw [List.append_nil]; exact inv
    | cons id rest =>
      obtain ⟨t, ht, hti, htm, indeg2, queue2, hrun, hinv2, hmeas⟩ := loopInv_round hU inv
      have hstep : kahnLoop f f.adj0 f.keysOf (fuel + 1) indeg (id :: rest) res
          = kahnLoop f f.adj0 f.keysOf fuel indeg2 queue2 (res ++ [t]) := by
        simp only [kahnLoop, ht, hrun]
      obtain ⟨ext2, indeg3, hres, hinv3⟩ := ih indeg2 queue2 (res ++ [t]) (by omega) hinv2
      have hsh : (res ++ [t]) ++ ext2 = res ++ t :: ext2 := by simp
      refine ⟨t :: ext2, indeg3, ?_, ?_⟩
      · rw [hstep, hres, hsh]
      · rw [← hsh]; exact hinv3

theorem loopInv_init {f : TasksFile} (hU : f.ids.Nodup) {init : List String}
    (hinit : init.Perm f.zeroKeys) : LoopInv f f.indeg0 init [] := by
  have hzk : f.zeroKeys.Nodup := (keysOf_nodup f).filter _
  refine ⟨?_, ?_, ?_, ?_, ?_, ?_, ?_⟩
  · simpa using hinit.nodup_iff.mpr hzk
  · intro x hx
    have h1 : x ∈ f.zeroKeys := hinit.mem_iff.mp hx
    exact mem_keysOf_iff.mp (List.mem_of_mem_filter h1)
  · intro t ht; exact absurd ht (List.not_mem_nil t)
  · intro u hu
    simp only [List.map_nil]
    rw [unpoppedCount_nil]
    exact indeg0_eq hU hu
  · intro u hu
    rw [hinit.mem_iff]
    simp only [List.map_nil, List.not_mem_nil, not_false_iff, true_and]
    constructor
    · intro hz
      have := List.of_mem_filter hz
      simpa using this
    · intro hz
      refine List.mem_filter.mpr ⟨?_, by simpa using hz⟩
      exact mem_keysOf_iff.mpr (mem_ids_iff.mpr ⟨u, hu, rfl⟩)
  · intro u _ hc
    simp at hc
  · intro i h
    exact absurd h (by simp)

/-- A full run of the Rust elimination: given unique ids, no dangling
references, and an initial queue that enumerates the zero-in-degree keys,
the loop finishes without panicking and its final state satisfies the
invariant with an empty queue. -/
theorem kahn_run {f : TasksFile} (hU : f.ids.Nodup) {init : List String}
    (hinit : init.Perm f.zeroKeys) :
    ∃ res indeg2,
      kahnLoop f f.adj0 f.keysOf (f.kahnFuel init) f.indeg0 init [] = some res ∧
      LoopInv f indeg2 [] res := by
  obtain ⟨ext, indeg2, hres, hinv⟩ :=
    kahnLoop_run hU (f.kahnFuel init) f.indeg0 init []
      (by simp [TasksFile.kahnFuel]) (loopInv_init hU hinit)
  exact ⟨ext, indeg2, by simpa using hres, by simpa using hinv⟩

/-! ### From a stuck state to a cycle -/

/-- If some id is left over and every leftover id has a leftover dependency,
the dependency relation has a cycle (follow predecessors, pigeonhole). -/
theorem cycle_of_all_pred {f : TasksFile} {P : List String}
    (hne : ∃ k, k ∈ f.ids ∧ k ∉ P)
    (hpred : ∀ k, k ∈ f.ids → k ∉ P → ∃ d, d ∈ f.ids ∧ d ∉ P ∧ Edge f d k) :
    hasCycle f := by
  obtain ⟨k0, hk01, hk02⟩ := hne
  have step : ∀ x : {x : String // x ∈ f.ids ∧ x ∉ P},
      ∃ y : {x : String // x ∈ f.ids ∧ x ∉ P}, Edge f y.val x.val := by
    rintro ⟨x, hx1, hx2⟩
    obtain ⟨d, hd1, hd2, hd3⟩ := hpred x hx1 hx2
    exact ⟨⟨d, hd1, hd2⟩, hd3⟩
  let g : ℕ → {x : String // x ∈ f.ids ∧ x ∉ P} :=
    fun n => Nat.rec ⟨k0, hk01, hk02⟩ (fun _ x => (step x).choose) n
  have hg : ∀ n, Edge f (g (n + 1)).val (g n).val := fun n => (step (g n)).choose_spec
  have hchain : ∀ m k, Relation.TransGen (Edge f) (g (k + m + 1)).val (g k).val := by
    intro m
    induction m with
    | zero => intro k; exact Relation.TransGen.single (hg k)
    | succ m ihm =>
      intro k
      have he : k + (m + 1) + 1 = (k + m + 1) + 1 := by omega
      rw [he]
      exact Relation.TransGen.head (hg (k + m + 1)) (ihm k)
  have hlt : ∀ n, f.ids.indexOf (g n).val < f.ids.length :=
    fun n => List.indexOf_lt_length.mpr (g n).2.1
  obtain ⟨a, b, hab, heq⟩ := Fintype.exists_ne_map_eq_of_card_lt
    (fun i : Fin (f.ids.length + 1) =>
      (⟨f.ids.indexOf (g i.val).val, hlt i.val⟩ : Fin f.ids.length))
    (by simp)
  have hidx : f.ids.indexOf (g a.val).val = f.ids.indexOf (g b.val).val := by
    have h2 := congrArg Fin.val heq
    simpa using h2
  have hvv : (g a.val).val = (g b.val).val :=
    (List.indexOf_inj (g a.val).2.1 (g b.val).2.1).mp hidx
  have habv : a.val ≠ b.val := fun h => hab (Fin.ext h)
  rcases Nat.lt_or_ge a.val b.val with hltab | hge
  · have hc := hchain (b.val - a.val - 1) a.val
    rw [show a.val + (b.val - a.val - 1) + 1 = b.val by omega] at hc
    rw [← hvv] at hc
    exact ⟨(g a.val).val, hc⟩
  · have hltba : b.val < a.val := by omega
    have hc := hchain (a.val - b.val - 1) b.val
    rw [show b.val + (a.val - b.val - 1) + 1 = a.val by omega] at hc
    rw [hvv] at hc
    exact ⟨(g b.val).val, hc⟩

/-! ### Positions in the collected order -/

theorem indexOf_lt_of_mem_take {d : String} :
    ∀ {l : List String} {i : Nat}, d ∈ l.take i → l.indexOf d < i := by
  intro l
  induction l with
  | nil => intro i h; simp at h
  | cons a l ih =>
    intro i h
    cases i with
    | zero => simp at h
    | succ j =>
      rw [List.take_succ_cons] at h
      by_cases hda : d = a
      · subst hda
        rw [List.indexOf_cons_self]
        omega
      · have h' : d ∈ l.take j := by
          rcases List.mem_cons.mp h with h1 | h1
          · exact absurd h1 hda
          · exact h1
        rw [List.indexOf_cons_ne _ (Ne.symm hda)]
        have := ih h'
        omega

theorem ordered_indexOf {res : List Task}
    (hN : (res.map (fun t => t.id)).Nodup)
    (hord : ∀ i (h : i < res.length), ∀ d ∈ (res.get ⟨i, h⟩).depends,
      d ∈ (res.take i).map (fun t => t.id)) :
    ∀ u ∈ res, ∀ d ∈ u.depends,
      (res.map (fun t => t.id)).indexOf d < (res.map (fun t => t.id)).indexOf u.id := by
  intro u hu d hd
  obtain ⟨⟨i, hi⟩, hgi⟩ := List.mem_iff_get.mp hu
  have h1 : d ∈ (res.take i).map (fun t => t.id) := hord i hi d (by rw [hgi]; exact hd)
  have h2 : d ∈ (res.map (fun t => t.id)).take i := by
    rw [← List.map_take]
    exact h1
  have h3 : (res.map (fun t => t.id)).indexOf d < i := indexOf_lt_of_mem_take h2
  have hi' : i < (res.map (fun t => t.id)).length := by simpa using hi
  have h4 : (res.map (fun t => t.id)).indexOf u.id = i := by
    have h5 : (res.map (fun t => t.id)).get ⟨i, hi'⟩ = u.id := by
      rw [List.get_eq_getElem, List.getElem_map]
      rw [List.get_eq_getElem] at hgi
      rw [hgi]
    rw [← h5, List.get_eq_getElem]
    exact List.indexOf_getElem hN i hi'
  omega

theorem no_cycle_of_cover {f : TasksFile} (hU : f.ids.Nodup) {res : List Task}
    (hsub : ∀ t ∈ res, t ∈ f.tasks)
    (hN : (res.map (fun t => t.id)).Nodup)
    (hcov : ∀ k ∈ f.ids, k ∈ res.map (fun t => t.id))
    (hord : ∀ i (h : i < res.length), ∀ d ∈ (res.get ⟨i, h⟩).depends,
      d ∈ (res.take i).map (fun t => t.id)) :
    ¬ hasCycle f := by
  have hedge : ∀ a b, Edge f a b →
      (res.map (fun t => t.id)).indexOf a < (res.map (fun t => t.id)).indexOf b := by
    rintro a b ⟨u, hu, rfl, ha⟩
    have h1 : u.id ∈ res.map (fun t => t.id) := hcov _ (mem_ids_iff.mpr ⟨u, hu, rfl⟩)
    obtain ⟨v, hv, hvi⟩ := List.mem_map.mp h1
    have hvu : v = u := task_id_inj hU (hsub v hv) hu hvi
    rw [← hvu] at ha ⊢
    exact ordered_indexOf hN hord v hv a ha
  rintro ⟨x, hx⟩
  have hmono : ∀ a b, Relation.TransGen (Edge f) a b →
      (res.map (fun t => t.id)).indexOf a < (res.map (fun t => t.id)).indexOf b := by
    intro a b h
    induction h with
    | single h1 => exact hedge _ _ h1
    | tail _ h2 ih => exact Nat.lt_trans ih (hedge _ _ h2)
  exact absurd (hmono x x hx) (Nat.lt_irrefl _)

theorem loopInv_final {f : TasksFile} (hD : f.allDepsExist = true)
    {indeg : String → Nat} {res : List Task} (inv : LoopInv f indeg [] res) :
    (∀ k ∈ f.ids, k ∈ res.map (fun t => t.id)) ∨ hasCycle f := by
  by_cases hcov : ∀ k ∈ f.ids, k ∈ res.map (fun t => t.id)
  · exact Or.inl hcov
  · push_neg at hcov
    obtain ⟨k0, hk1, hk2⟩ := hcov
    right
    apply cycle_of_all_pred ⟨k0, hk1, hk2⟩
    intro k hk hknp
    obtain ⟨u, hu, rfl⟩ := mem_ids_iff.mp hk
    have h3 : indeg u.id ≠ 0 := by
      intro hz
      exact List.not_mem_nil u.id ((inv.queue_iff u hu).mpr ⟨hknp, hz⟩)
    rw [inv.deg u hu] at h3
    have h4 : ∃ d ∈ u.depends, d ∉ res.map (fun t => t.id) := by
      by_contra hc
      push_neg at hc
      exact h3 (unpoppedCount_eq_zero_iff.mpr hc)
    obtain ⟨d, hd1, hd2⟩ := h4
    exact ⟨d, allDepsExist_iff.mp hD u hu d hd1, hd2, ⟨u, hu, rfl, hd1⟩⟩

theorem cover_perm {f : TasksFile} (hU : f.ids.Nodup) {res : List Task}
    (hsub : ∀ t ∈ res, t ∈ f.tasks)
    (hN : (res.map (fun t => t.id)).Nodup)
    (hcov : ∀ k ∈ f.ids, k ∈ res.map (fun t => t.id)) :
    res.Perm f.tasks := by
  have hrn : res.Nodup := List.Nodup.of_map _ hN
  have htn : f.tasks.Nodup := List.Nodup.of_map _ hU
  refine (List.perm_ext_iff_of_nodup hrn htn).mpr ?_
  intro t
  constructor
  · exact hsub t
  · intro ht
    have h1 : t.id ∈ res.map (fun u => u.id) := hcov _ (mem_ids_iff.mpr ⟨t, ht, rfl⟩)
    obtain ⟨v, hv, hvi⟩ := List.mem_map.mp h1
    have hvt : v = t := task_id_inj hU (hsub v hv) ht hvi
    exact hvt ▸ hv

theorem not_cover_length_lt {f : TasksFile} (hU : f.ids.Nodup) {res : List Task}
    (hN : (res.map (fun t => t.id)).Nodup)
    (hids : ∀ x ∈ res.map (fun t => t.id), x ∈ f.ids)
    (hncov : ¬ ∀ k ∈ f.ids, k ∈ res.map (fun t => t.id)) :
    res.length < f.tasks.length := by
  push_neg at hncov
  obtain ⟨k0, hk1, hk2⟩ := hncov
  have hsub : (res.map (fun t => t.id)).toFinset ⊆ f.ids.toFinset := by
    intro x hx
    rw [List.mem_toFinset] at hx ⊢
    exact hids x hx
  have h1 : (res.map (fun t => t.id)).toFinset ⊂ f.ids.toFinset :=
    (Finset.ssubset_iff_of_subset hsub).mpr
      ⟨k0, List.mem_toFinset.mpr hk1, fun hc => hk2 (List.mem_toFinset.mp hc)⟩
  have h2 := Finset.card_lt_card h1
  rw [List.toFinset_card_of_nodup hN, List.toFinset_card_of_nodup hU] at h2
  simpa [TasksFile.ids] using h2

/-! ### Bridge between the two Kahn loops -/

theorem kahnCount_of_kahnLoop {f : TasksFile} :
    ∀ fuel indeg queue res r n,
    (∀ x ∈ queue, x ∈ f.ids) →
    kahnLoop f f.adj0 f.keysOf fuel indeg queue res = some r →
    ∃ ext, r = res ++ ext ∧
      kahnCount f.keysOf f.adj0 fuel indeg queue n = some (n + ext.length) := by
  intro fuel
  induction fuel with
  | zero =>
    intro _ _ _ _ _ _ h
    exact Option.noConfusion h
  | succ fuel ih =>
    intro indeg queue res r n hq hrun
    cases queue with
    | nil =>
      rw [kahnLoop] at hrun
      injection hrun with hrun
      refine ⟨[], by rw [← hrun]; simp, ?_⟩
      rw [kahnCount]
      simp
    | cons id rest =>
      have hid : id ∈ f.ids := hq id (List.mem_cons_self id rest)
      obtain ⟨t, ht⟩ := get_task_by_id_isSome.mpr hid
      simp only [kahnLoop, ht] at hrun
      cases hp : processDeps f.keysOf indeg rest (f.adj0 id) with
      | none =>
        rw [hp] at hrun
        exact Option.noConfusion hrun
      | some pair =>
        obtain ⟨indeg2, queue2⟩ := pair
        rw [hp] at hrun
        simp only at hrun
        have hq2 : ∀ x ∈ queue2, x ∈ f.ids := by
          intro x hx
          rcases processDeps_queue_sub _ _ _ _ _ hp x hx with h1 | h1
          · exact hq x (List.mem_cons_of_mem id h1)
          · exact mem_keysOf_iff.mp h1
        obtain ⟨ext2, hr, hcnt⟩ := ih indeg2 queue2 (res ++ [t]) r (n + 1) hq2 hrun
        refine ⟨t :: ext2, by rw [hr]; simp, ?_⟩
        rw [kahnCount, hp]
        simp only
        rw [hcnt]
        congr 1
        simp only [List.length_cons]
        omega

/-! ### Outcomes of the public wrappers -/

theorem init_sub_ids {f : TasksFile} {init : List String}
    (hinit : init.Perm f.zeroKeys) : ∀ x ∈ init, x ∈ f.ids := by
  intro x hx
  exact mem_keysOf_iff.mp (List.mem_of_mem_filter (hinit.mem_iff.mp hx))

/-- The central case analysis: with unique ids and no dangling references,
a run of the elimination either covers everything (the graph is acyclic, a
valid order is produced) or leaves a cycle behind (both functions report the
circular-dependency error).  No run panics. -/
theorem topo_check_spec {f : TasksFile} (hU : f.ids.Nodup) (hD : f.allDepsExist = true)
    {init : List String} (hinit : init.Perm f.zeroKeys) :
    (¬ hasCycle f ∧
      (∃ res, f.topological_order init = some (Except.ok res) ∧ res.Perm f.tasks ∧
        ∀ u ∈ res, ∀ d ∈ u.depends,
          (res.map (fun t => t.id)).indexOf d < (res.map (fun t => t.id)).indexOf u.id) ∧
      f.check_no_cycles init = some (Except.ok ()))
    ∨ (hasCycle f ∧
      f.topological_order init = some (Except.error "Circular dependency detected in tasks") ∧
      f.check_no_cycles init = some (Except.error "Circular dependency detected in tasks")) := by
  obtain ⟨res, indeg2, hres, hinv⟩ := kahn_run hU hinit
  obtain ⟨ext, hext, hcnt⟩ := kahnCount_of_kahnLoop _ _ _ _ _ 0 (init_sub_ids hinit) hres
  rw [List.nil_append] at hext
  subst hext
  rw [Nat.zero_add] at hcnt
  have hN : (res.map (fun t => t.id)).Nodup := by simpa using hinv.nodup
  by_cases hcov : ∀ k ∈ f.ids, k ∈ res.map (fun t => t.id)
  · left
    have hnc : ¬ hasCycle f := no_cycle_of_cover hU hinv.res_tasks hN hcov hinv.ordered
    have hperm : res.Perm f.tasks := cover_perm hU hinv.res_tasks hN hcov
    have hlen : res.length = f.tasks.length := hperm.length_eq
    refine ⟨hnc, ⟨res, ?_, hperm, ordered_indexOf hN hinv.ordered⟩, ?_⟩
    · rw [TasksFile.topological_order, if_pos hD, hres]
      simp only
      rw [if_pos hlen]
    · rw [TasksFile.check_no_cycles, if_pos hD, hcnt]
      simp only
      rw [if_pos hlen]
  · right
    have hcyc : hasCycle f := (loopInv_final hD hinv).resolve_left hcov
    have hids : ∀ x ∈ res.map (fun t => t.id), x ∈ f.ids := by
      intro x hx
      obtain ⟨t, ht, rfl⟩ := List.mem_map.mp hx
      exact mem_ids_iff.mpr ⟨t, hinv.res_tasks t ht, rfl⟩
    have hlt : res.length < f.tasks.length := not_cover_length_lt hU hN hids hcov
    have hne : ¬ (res.length = f.tasks.length) := by omega
    refine ⟨hcyc, ?_, ?_⟩
    · rw [TasksFile.topological_order, if_pos hD, hres]
      simp only
      rw [if_neg hne]
    · rw [TasksFile.check_no_cycles, if_pos hD, hcnt]
      simp only
      rw [if_neg hne]

theorem validate_eq_check_no_cycles {f : TasksFile} (hU : f.ids.Nodup)
    (hD : f.allDepsExist = true) (init : List String) :
    f.validate init = f.check_no_cycles init := by
  have h1 : f.check_unique_ids = Except.ok () := check_unique_ids_ok_iff.mpr hU
  have h2 : f.check_dependency_refs = Except.ok () := check_dependency_refs_ok_iff.mpr hD
  simp only [TasksFile.validate, h1, h2]

theorem validate_error_unique {f : TasksFile} {e : String}
    (h : f.check_unique_ids = Except.error e) (init : List String) :
    f.validate init = some (Except.error e) := by
  simp only [TasksFile.validate, h]

theorem validate_error_deps {f : TasksFile} {e : String}
    (hok : f.check_unique_ids = Except.ok ()) (h : f.check_dependency_refs = Except.error e)
    (init : List String) :
    f.validate init = some (Except.error e) := by
  simp only [TasksFile.validate, hok, h]

/-- `validate` succeeds exactly on graphs with unique ids, no dangling
references, and an acyclic dependency relation. -/
theorem validate_ok_iff {f : TasksFile} {init : List String}
    (hinit : init.Perm f.zeroKeys) :
    f.validate init = some (Except.ok ()) ↔
      (f.ids.Nodup ∧ f.allDepsExist = true ∧ ¬ hasCycle f) := by
  constructor
  · intro h
    have hU : f.ids.Nodup := by
      by_contra hc
      cases hcu : f.check_unique_ids with
      | ok u => cases u; exact hc (check_unique_ids_ok_iff.mp hcu)
      | error e =>
        rw [validate_error_unique hcu init] at h
        injection h with h
        exact Except.noConfusion h
    have hD : f.allDepsExist = true := by
      by_contra hc
      cases hcd : f.check_dependency_refs with
      | ok u => cases u; exact hc (check_dependency_refs_ok_iff.mp hcd)
      | error e =>
        rw [validate_error_deps (check_unique_ids_ok_iff.mpr hU) hcd init] at h
        injection h with h
        exact Except.noConfusion h
    refine ⟨hU, hD, ?_⟩
    rcases topo_check_spec hU hD hinit with ⟨hnc, _, _⟩ | ⟨_, _, hchk⟩
    · exact hnc
    · rw [validate_eq_check_no_cycles hU hD init, hchk] at h
      injection h with h
      exact Except.noConfusion h
  · rintro ⟨hU, hD, hnc⟩
    rcases topo_check_spec hU hD hinit with ⟨_, _, hchk⟩ | ⟨hcyc, _, _⟩
    · rw [validate_eq_check_no_cycles hU hD init, hchk]
    · exact absurd hcyc hnc

/-! ### Membership in the ready and blocked views -/

/-- The Bool the ready filter evaluates for one dependency. -/
def depSatisfied (f : TasksFile) (dep_id : String) : Bool :=
  match f.get_task_by_id dep_id with
  | some t => t.completed
  | none => false

/-- The Bool the blocked filter evaluates for one dependency. -/
def depUnsatisfied (f : TasksFile) (dep_id : String) : Bool :=
  match f.get_task_by_id dep_id with
  | some t => !t.completed
  | none => true

theorem depSatisfied_iff {f : TasksFile} {d : String} :
    depSatisfied f d = true ↔ ∃ u, f.get_task_by_id d = some u ∧ u.completed = true := by
  rw [depSatisfied]
  cases hg : f.get_task_by_id d with
  | none =>
    simp only [Bool.false_eq_true, false_iff]
    rintro ⟨u, hu, _⟩
    exact Option.noConfusion hu
  | some u =>
    constructor
    · intro h; exact ⟨u, rfl, h⟩
    · rintro ⟨v, hv, hvc⟩
      injection hv with hv
      exact hv ▸ hvc

theorem depUnsatisfied_eq_not {f : TasksFile} (d : String) :
    depUnsatisfied f d = !(depSatisfied f d) := by
  rw [depUnsatisfied, depSatisfied]
  cases f.get_task_by_id d <;> simp

theorem mem_ready_iff {f : TasksFile} {t : Task} :
    t ∈ f.get_ready_tasks ↔
      (t ∈ f.tasks ∧ t.completed = false ∧
        ∀ d ∈ t.depends, ∃ u, f.get_task_by_id d = some u ∧ u.completed = true) := by
  rw [TasksFile.get_ready_tasks, List.mem_filter]
  have hpred : ∀ u : Task,
      ((!u.completed && u.depends.all (fun dep_id =>
        match f.get_task_by_id dep_id with
        | some t => t.completed
        | none => false)) = true)
      ↔ (u.completed = false ∧ ∀ d ∈ u.depends, depSatisfied f d = true) := by
    intro u
    rw [Bool.and_eq_true, List.all_eq_true]
    constructor
    · rintro ⟨h1, h2⟩
      exact ⟨by simpa using h1, fun d hd => h2 d hd⟩
    · rintro ⟨h1, h2⟩
      exact ⟨by simp [h1], fun d hd => h2 d hd⟩
  rw [hpred t]
  constructor
  · rintro ⟨h1, h2, h3⟩
    exact ⟨h1, h2, fun d hd => depSatisfied_iff.mp (h3 d hd)⟩
  · rintro ⟨h1, h2, h3⟩
    exact ⟨h1, h2, fun d hd => depSatisfied_iff.mpr (h3 d hd)⟩

theorem unsat_filter_eq {f : TasksFile} (t : Task) :
    t.depends.filter (fun dep_id =>
      match f.get_task_by_id dep_id with
      | some t => !t.completed
      | none => true) = t.depends.filter (depUnsatisfied f) := by
  apply List.filter_congr
  intro d _
  rfl

theorem mem_blocked_iff {f : TasksFile} {t : Task} {ds : List String} :
    (t, ds) ∈ f.get_blocked_tasks ↔
      (t ∈ f.tasks ∧ t.completed = false ∧
        ds = t.depends.filter (depUnsatisfied f) ∧ ds ≠ []) := by
  rw [TasksFile.get_blocked_tasks, List.mem_filterMap]
  constructor
  · rintro ⟨a, ha, hfa⟩
    rw [List.mem_filter] at ha
    simp only [unsat_filter_eq] at hfa
    by_cases he : (a.depends.filter (depUnsatisfied f)).isEmpty
    · rw [if_pos he] at hfa
      exact Option.noConfusion hfa
    · rw [if_neg he] at hfa
      injection hfa with hfa
      have h1 : a = t := congrArg Prod.fst hfa
      have h2 : a.depends.filter (depUnsatisfied f) = ds := congrArg Prod.snd hfa
      subst h1
      refine ⟨ha.1, by simpa using ha.2, h2.symm, ?_⟩
      rw [← h2]
      intro hc
      exact he (by rw [hc]; rfl)
  · rintro ⟨h1, h2, h3, h4⟩
    refine ⟨t, List.mem_filter.mpr ⟨h1, by simp [h2]⟩, ?_⟩
    simp only [unsat_filter_eq]
    rw [if_neg ?_]
    · rw [← h3]
    · rw [← h3]
      intro hc
      exact h4 (List.isEmpty_iff.mp hc)

theorem all_sat_iff_unsat_nil {f : TasksFile} (t : Task) :
    (∀ d ∈ t.depends, depSatisfied f d = true) ↔
      t.depends.filter (depUnsatisfied f) = [] := by
  rw [List.filter_eq_nil_iff]
  constructor
  · intro h d hd
    rw [depUnsatisfied_eq_not, h d hd]
    simp
  · intro h d hd
    have := h d hd
    rw [depUnsatisfied_eq_not] at this
    simpa using this

/-! ### Invariance under reordering / duplicating `depends` entries -/

/-- Two tasks agreeing on id, title and completion whose `depends` lists
have the same members: the relation induced by permuting a `depends` list or
adding duplicate entries to it. -/
def TaskSim (t u : Task) : Prop :=
  t.id = u.id ∧ t.title = u.title ∧ t.completed = u.completed ∧
    ∀ d, d ∈ t.depends ↔ d ∈ u.depends

/-- Pointwise `TaskSim` between the task lists of two graphs. -/
def FileSim (f g : TasksFile) : Prop := List.Forall₂ TaskSim f.tasks g.tasks

theorem taskSim_symm {t u : Task} (h : TaskSim t u) : TaskSim u t :=
  ⟨h.1.symm, h.2.1.symm, h.2.2.1.symm, fun d => (h.2.2.2 d).symm⟩

theorem forall₂_taskSim_symm : ∀ {l1 l2 : List Task},
    List.Forall₂ TaskSim l1 l2 → List.Forall₂ TaskSim l2 l1 := by
  intro l1 l2 h
  induction h with
  | nil => exact List.Forall₂.nil
  | cons h1 _ ih => exact List.Forall₂.cons (taskSim_symm h1) ih

theorem fileSim_symm {f g : TasksFile} (h : FileSim f g) : FileSim g f :=
  forall₂_taskSim_symm h

theorem forall₂_map_id {l1 l2 : List Task} (h : List.Forall₂ TaskSim l1 l2) :
    l1.map (fun t => t.id) = l2.map (fun t => t.id) := by
  induction h with
  | nil => rfl
  | cons h1 _ ih => simp only [List.map_cons, ih, h1.1]

theorem fileSim_ids {f g : TasksFile} (h : FileSim f g) : f.ids = g.ids :=
  forall₂_map_id h

theorem forall₂_mem_left {l1 l2 : List Task} (h : List.Forall₂ TaskSim l1 l2) :
    ∀ t ∈ l1, ∃ u ∈ l2, TaskSim t u := by
  induction h with
  | nil => intro t ht; exact absurd ht (List.not_mem_nil t)
  | cons h1 _ ih =>
    intro t ht
    rcases List.mem_cons.mp ht with rfl | ht'
    · exact ⟨_, List.mem_cons_self _ _, h1⟩
    · obtain ⟨u, hu, hs⟩ := ih t ht'
      exact ⟨u, List.mem_cons_of_mem _ hu, hs⟩

theorem edge_of_sim {f g : TasksFile} (h : FileSim f g) {a b : String}
    (he : Edge f a b) : Edge g a b := by
  obtain ⟨t, ht, rfl, ha⟩ := he
  obtain ⟨u, hu, hs⟩ := forall₂_mem_left h t ht
  exact ⟨u, hu, hs.1.symm, (hs.2.2.2 a).mp ha⟩

theorem hasCycle_iff_of_sim {f g : TasksFile} (h : FileSim f g) :
    hasCycle f ↔ hasCycle g := by
  constructor
  · rintro ⟨x, hx⟩
    exact ⟨x, Relation.TransGen.mono (fun a b => edge_of_sim h) hx⟩
  · rintro ⟨x, hx⟩
    exact ⟨x, Relation.TransGen.mono (fun a b => edge_of_sim (fileSim_symm h)) hx⟩

theorem allDeps_iff_of_sim {f g : TasksFile} (h : FileSim f g) :
    f.allDepsExist = true ↔ g.allDepsExist = true := by
  rw [allDepsExist_iff, allDepsExist_iff]
  constructor
  · intro hf t ht d hd
    obtain ⟨u, hu, hs⟩ := forall₂_mem_left (fileSim_symm h) t ht
    rw [← fileSim_ids h]
    exact hf u hu d ((hs.2.2.2 d).mp hd)
  · intro hg t ht d hd
    obtain ⟨u, hu, hs⟩ := forall₂_mem_left h t ht
    rw [fileSim_ids h]
    exact hg u hu d ((hs.2.2.2 d).mp hd)

theorem lookup_sim {l1 l2 : List Task} (h : List.Forall₂ TaskSim l1 l2) (d : String) :
    (l1.find? (fun t => t.id == d) = none ∧ l2.find? (fun t => t.id == d) = none) ∨
    (∃ t u, l1.find? (fun t => t.id == d) = some t ∧
      l2.find? (fun t => t.id == d) = some u ∧ TaskSim t u) := by
  induction h with
  | nil => exact Or.inl ⟨rfl, rfl⟩
  | @cons a b l1 l2 h1 _ ih =>
    cases had : (a.id == d) with
    | true =>
      have hbd : (b.id == d) = true := by rw [← h1.1]; exact had
      exact Or.inr ⟨a, b, List.find?_cons_of_pos _ had, List.find?_cons_of_pos _ hbd, h1⟩
    | false =>
      have hbd : (b.id == d) = false := by rw [← h1.1]; exact had
      rw [List.find?_cons_of_neg _ (by simp [had]), List.find?_cons_of_neg _ (by simp [hbd])]
      exact ih

theorem depSatisfied_sim {f g : TasksFile} (h : FileSim f g) (d : String) :
    depSatisfied f d = depSatisfied g d := by
  rcases lookup_sim h d with ⟨h1, h2⟩ | ⟨t, u, h1, h2, hs⟩
  · rw [depSatisfied, depSatisfied, TasksFile.get_task_by_id, TasksFile.get_task_by_id, h1, h2]
  · rw [depSatisfied, depSatisfied, TasksFile.get_task_by_id, TasksFile.get_task_by_id, h1, h2]
    simp only
    exact hs.2.2.1

theorem depUnsatisfied_sim {f g : TasksFile} (h : FileSim f g) (d : String) :
    depUnsatisfied f d = depUnsatisfied g d := by
  rw [depUnsatisfied_eq_not, depUnsatisfied_eq_not, depSatisfied_sim h d]

theorem indeg0_zero_sim {f g : TasksFile} (h : FileSim f g) (k : String) :
    (f.indeg0 k == 0) = (g.indeg0 k == 0) := by
  rcases lookup_sim (List.forall₂_reverse_iff.mpr h) k with ⟨h1, h2⟩ | ⟨t, u, h1, h2, hs⟩
  · rw [TasksFile.indeg0, TasksFile.indeg0, h1, h2]
  · rw [TasksFile.indeg0, TasksFile.indeg0, h1, h2]
    simp only
    rw [Bool.eq_iff_iff]
    simp only [beq_iff_eq, List.length_eq_zero]
    constructor
    · intro he
      rw [List.eq_nil_iff_forall_not_mem] at he ⊢
      intro d hd
      exact he d ((hs.2.2.2 d).mpr hd)
    · intro he
      rw [List.eq_nil_iff_forall_not_mem] at he ⊢
      intro d hd
      exact he d ((hs.2.2.2 d).mp hd)

theorem zeroKeys_sim {f g : TasksFile} (h : FileSim f g) : f.zeroKeys = g.zeroKeys := by
  rw [TasksFile.zeroKeys, TasksFile.zeroKeys, TasksFile.keysOf, TasksFile.keysOf,
    fileSim_ids h]
  exact List.filter_congr (fun k _ => indeg0_zero_sim h k)

theorem validate_ok_iff_of_sim {f g : TasksFile} (h : FileSim f g)
    {initf initg : List String} (hf : initf.Perm f.zeroKeys) (hg : initg.Perm g.zeroKeys) :
    (f.validate initf = some (Except.ok ()) ↔ g.validate initg = some (Except.ok ())) := by
  rw [validate_ok_iff hf, validate_ok_iff hg]
  exact and_congr (by rw [fileSim_ids h])
    (and_congr (allDeps_iff_of_sim h) (not_congr (hasCycle_iff_of_sim h)))

theorem ready_sim_mp {f g : TasksFile} (h : FileSim f g) {x : String} :
    (∃ t, t ∈ f.get_ready_tasks ∧ t.id = x) → (∃ u, u ∈ g.get_ready_tasks ∧ u.id = x) := by
  rintro ⟨t, ht, rfl⟩
  rw [mem_ready_iff] at ht
  obtain ⟨u, hu, hs⟩ := forall₂_mem_left h t ht.1
  refine ⟨u, ?_, hs.1.symm⟩
  rw [mem_ready_iff]
  refine ⟨hu, hs.2.2.1 ▸ ht.2.1, ?_⟩
  intro d hd
  have hdf : d ∈ t.depends := (hs.2.2.2 d).mpr hd
  have h2 : depSatisfied f d = true := depSatisfied_iff.mpr (ht.2.2 d hdf)
  rw [depSatisfied_sim h d] at h2
  exact depSatisfied_iff.mp h2

theorem blocked_sim_mp {f g : TasksFile} (h : FileSim f g) {x : String} :
    (∃ t ds, (t, ds) ∈ f.get_blocked_tasks ∧ t.id = x) →
    (∃ u ds, (u, ds) ∈ g.get_blocked_tasks ∧ u.id = x) := by
  rintro ⟨t, ds, htb, rfl⟩
  rw [mem_blocked_iff] at htb
  obtain ⟨htm, htc, hds, hne⟩ := htb
  obtain ⟨u, hu, hs⟩ := forall₂_mem_left h t htm
  refine ⟨u, u.depends.filter (depUnsatisfied g), ?_, hs.1.symm⟩
  rw [mem_blocked_iff]
  refine ⟨hu, hs.2.2.1 ▸ htc, rfl, ?_⟩
  intro hc
  rw [List.filter_eq_nil_iff] at hc
  apply hne
  rw [hds, List.filter_eq_nil_iff]
  intro d hd
  have hdu : d ∈ u.depends := (hs.2.2.2 d).mp hd
  have h2 := hc d hdu
  rw [depUnsatisfied_sim h d]
  exact h2

/-! ### Concrete graphs used by witnesses and counterexamples -/

def taskA : Task := ⟨"a", "A", false, []⟩
def taskB : Task := ⟨"b", "B", false, ["a"]⟩
def taskA2 : Task := ⟨"a", "A again", false, []⟩
def taskB2 : Task := ⟨"b", "B", false, ["a", "a"]⟩
def taskBdup : Task := ⟨"b", "B again", false, ["a"]⟩
def taskP : Task := ⟨"p", "P", false, ["q"]⟩
def taskQ : Task := ⟨"q", "Q", false, ["p"]⟩
def taskP2 : Task := ⟨"p", "P again", false, []⟩
def taskX : Task := ⟨"x", "X", false, []⟩
def taskY : Task := ⟨"y", "Y", false, []⟩
def taskDg : Task := ⟨"b", "B", false, ["zzz"]⟩
def taskMiss : Task := ⟨"a", "A", false, ["missing"]⟩

/-- Acyclic two-task chain `a ← b`. -/
def exChain : TasksFile := ⟨[taskA, taskB]⟩
/-- Like `exChain` but with a duplicated `depends` entry on `b`. -/
def exChainDup : TasksFile := ⟨[taskA, taskB2]⟩
/-- Two-task cycle `p ↔ q`. -/
def exCyc : TasksFile := ⟨[taskP, taskQ]⟩
/-- A cycle plus a duplicate id. -/
def exCycDup : TasksFile := ⟨[taskP, taskQ, taskP2]⟩
/-- Two independent tasks: tie-break between `x` and `y`. -/
def exDet : TasksFile := ⟨[taskX, taskY]⟩
/-- A dangling dependency reference. -/
def exDangle : TasksFile := ⟨[taskMiss]⟩
/-- Duplicate ids causing a `usize` underflow in the elimination. -/
def exUnder : TasksFile := ⟨[taskA, taskB, taskBdup]⟩
/-- Two tasks sharing the id `a`. -/
def exDup : TasksFile := ⟨[taskA, taskA2]⟩
/-- One good task, one task with a dangling reference. -/
def exDangle2 : TasksFile := ⟨[taskA, taskDg]⟩

theorem acyclic_of_rank (f : TasksFile) (rank : String → Nat)
    (h : ∀ a b, Edge f a b → rank a < rank b) : ¬ hasCycle f := by
  rintro ⟨x, hx⟩
  have hmono : ∀ a b, Relation.TransGen (Edge f) a b → rank a < rank b := by
    intro a b hab
    induction hab with
    | single h1 => exact h _ _ h1
    | tail _ h2 ih => exact Nat.lt_trans ih (h _ _ h2)
  exact absurd (hmono x x hx) (Nat.lt_irrefl _)

theorem exChain_acyclic : ¬ hasCycle exChain := by
  apply acyclic_of_rank exChain (fun x => if x = "b" then 1 else 0)
  rintro a b ⟨t, ht, rfl, ha⟩
  simp only [exChain, List.mem_cons, List.not_mem_nil, or_false] at ht
  rcases ht with rfl | rfl
  · simp [taskA] at ha
  · simp only [taskB, List.mem_singleton] at ha
    subst ha
    decide

theorem exCyc_edgePQ : Edge exCyc "p" "q" := ⟨taskQ, by decide, rfl, by decide⟩

theorem exCyc_edgeQP : Edge exCyc "q" "p" := ⟨taskP, by decide, rfl, by decide⟩

theorem exCyc_cycle : hasCycle exCyc :=
  ⟨"p", Relation.TransGen.tail (Relation.TransGen.single exCyc_edgePQ) exCyc_edgeQP⟩

theorem exCycDup_edgePQ : Edge exCycDup "p" "q" := ⟨taskQ, by decide, rfl, by decide⟩

theorem exCycDup_edgeQP : Edge exCycDup "q" "p" := ⟨taskP, by decide, rfl, by decide⟩

theorem exCycDup_cycle : hasCycle exCycDup :=
  ⟨"p", Relation.TransGen.tail (Relation.TransGen.single exCycDup_edgePQ) exCycDup_edgeQP⟩

/-! ### The claims -/

/-- C1: for every graph with no duplicate ids, no dangling references and no
cycle, `validate` succeeds and `topological_order` returns a permutation of
all tasks in which every dependency's position precedes the position of each
task depending on it (positions taken in the returned order). -/
theorem claim_C1 (f : TasksFile) (initv initt : List String)
    (hU : f.ids.Nodup) (hD : f.allDepsExist = true) (hA : ¬ hasCycle f)
    (hiv : initv.Perm f.zeroKeys) (hit : initt.Perm f.zeroKeys) :
    f.validate initv = some (Except.ok ()) ∧
    ∃ r, f.topological_order initt = some (Except.ok r) ∧ r.Perm f.tasks ∧
      ∀ u ∈ r, ∀ d ∈ u.depends,
        (r.map (fun t => t.id)).indexOf d < (r.map (fun t => t.id)).indexOf u.id := by
  refine ⟨(validate_ok_iff hiv).mpr ⟨hU, hD, hA⟩, ?_⟩
  rcases topo_check_spec hU hD hit with ⟨_, ⟨r, h1, h2, h3⟩, _⟩ | ⟨hcyc, _, _⟩
  · exact ⟨r, h1, h2, h3⟩
  · exact absurd hcyc hA

/-- Witness for C1 on the two-task chain `a ← b`. -/
theorem claim_C1_witness :
    exChain.validate ["a"] = some (Except.ok ()) ∧
    ∃ r, exChain.topological_order ["a"] = some (Except.ok r) ∧ r.Perm exChain.tasks ∧
      ∀ u ∈ r, ∀ d ∈ u.depends,
        (r.map (fun t => t.id)).indexOf d < (r.map (fun t => t.id)).indexOf u.id :=
  claim_C1 exChain ["a"] ["a"] (by decide) (by decide) exChain_acyclic (by decide) (by decide)

/-- C2: `get_ready_tasks` returns exactly the not-completed tasks all of
whose dependencies look up to completed tasks, in the graph's insertion
order (a sublist of `tasks`); a not-completed task with an empty `depends`
list is always included. -/
theorem claim_C2 (f : TasksFile) :
    (f.get_ready_tasks).Sublist f.tasks ∧
    (∀ t, t ∈ f.get_ready_tasks ↔ (t ∈ f.tasks ∧ t.completed = false ∧
      ∀ d ∈ t.depends, ∃ u, f.get_task_by_id d = some u ∧ u.completed = true)) ∧
    (∀ t, t ∈ f.tasks → t.completed = false → t.depends = [] → t ∈ f.get_ready_tasks) := by
  refine ⟨List.filter_sublist _, fun t => mem_ready_iff, ?_⟩
  intro t ht hc hd
  rw [mem_ready_iff]
  refine ⟨ht, hc, ?_⟩
  rw [hd]
  intro d hd'
  exact absurd hd' (List.not_mem_nil d)

/-- C3 as stated is false: a graph containing a cycle can also contain a
duplicate id, in which case `validate` fails with the duplicate-id error,
not the cyclic-dependency error. -/
theorem claim_C3_cex :
    hasCycle exCycDup ∧ (["p"] : List String).Perm exCycDup.zeroKeys ∧
    exCycDup.validate ["p"] = some (Except.error ("Duplicate task ID: " ++ "p")) ∧
    ¬ exCycDup.validate ["p"]
        = some (Except.error "Circular dependency detected in tasks") := by
  refine ⟨exCycDup_cycle, by decide, rfl, ?_⟩
  intro h
  rw [(rfl : exCycDup.validate ["p"] = some (Except.error ("Duplicate task ID: " ++ "p")))] at h
  injection h with h
  injection h with h
  exact absurd h (by decide)

/-- C3 (amended): for every graph with unique ids and no dangling
references whose dependency relation contains a cycle, `validate` and
`topological_order` both fail with the cyclic-dependency error. -/
theorem claim_C3_amended (f : TasksFile) (initv initt : List String)
    (hU : f.ids.Nodup) (hD : f.allDepsExist = true) (hC : hasCycle f)
    (hiv : initv.Perm f.zeroKeys) (hit : initt.Perm f.zeroKeys) :
    f.validate initv = some (Except.error "Circular dependency detected in tasks") ∧
    f.topological_order initt = some (Except.error "Circular dependency detected in tasks") := by
  rcases topo_check_spec hU hD hiv with ⟨hnc, _, _⟩ | ⟨_, _, hchk⟩
  · exact absurd hC hnc
  · rcases topo_check_spec hU hD hit with ⟨hnc, _, _⟩ | ⟨_, htopo, _⟩
    · exact absurd hC hnc
    · exact ⟨(validate_eq_check_no_cycles hU hD initv).trans hchk, htopo⟩

/-- Witness for amended C3 on the two-task cycle. -/
theorem claim_C3_witness :
    exCyc.validate [] = some (Except.error "Circular dependency detected in tasks") ∧
    exCyc.topological_order []
      = some (Except.error "Circular dependency detected in tasks") :=
  claim_C3_amended exCyc [] [] (by decide) (by decide) exCyc_cycle (by decide) (by decide)

/-- C4: the code seeds the Kahn queue from `HashMap` iteration, whose order
is unspecified and randomly seeded per map; both enumeration orders of the
zero-in-degree keys are possible runs on the same unmodified graph, and they
produce different sequences, so repeated runs need not agree. -/
theorem claim_C4_bug :
    (["x", "y"] : List String).Perm exDet.zeroKeys ∧
    (["y", "x"] : List String).Perm exDet.zeroKeys ∧
    exDet.topological_order ["x", "y"] = some (Except.ok [taskX, taskY]) ∧
    exDet.topological_order ["y", "x"] = some (Except.ok [taskY, taskX]) ∧
    ([taskX, taskY] : List Task) ≠ [taskY, taskX] :=
  ⟨by decide, by decide, rfl, rfl, by decide⟩

/-- C5 as stated is false: on a graph with a dangling dependency reference
the Rust `topological_order` panics (`adj_list.get_mut(..).unwrap()` on a
missing key, modelled as `none`), and on a graph with duplicate ids the
`*degree -= 1` underflows (also `none`); neither run returns an order or a
circular-dependency error. -/
theorem claim_C5_cex :
    ([] : List String).Perm exDangle.zeroKeys ∧
    exDangle.topological_order [] = none ∧
    (["a"] : List String).Perm exUnder.zeroKeys ∧
    exUnder.topological_order ["a"] = none :=
  ⟨by decide, rfl, by decide, rfl⟩

/-- C5 (amended): for every graph with unique ids in which every `depends`
entry names some task, `topological_order` terminates normally, returning
either an order or the circular-dependency error. -/
theorem claim_C5_amended (f : TasksFile) (init : List String)
    (hU : f.ids.Nodup) (hD : f.allDepsExist = true) (hinit : init.Perm f.zeroKeys) :
    (∃ r, f.topological_order init = some (Except.ok r)) ∨
    f.topological_order init = some (Except.error "Circular dependency detected in tasks") := by
  rcases topo_check_spec hU hD hinit with ⟨_, ⟨r, h1, _, _⟩, _⟩ | ⟨_, h1, _⟩
  · exact Or.inl ⟨r, h1⟩
  · exact Or.inr h1

/-- Witness for amended C5 on the two-task chain. -/
theorem claim_C5_witness :
    (∃ r, exChain.topological_order ["a"] = some (Except.ok r)) ∨
    exChain.topological_order ["a"]
      = some (Except.error "Circular dependency detected in tasks") :=
  claim_C5_amended exChain ["a"] (by decide) (by decide) (by decide)

/-- C6: `get_blocked_tasks` returns exactly the not-completed tasks with at
least one unsatisfied dependency, paired with the list of their unsatisfied
dependency ids, where a dependency is unsatisfied when it names no task or
names a task that is not completed. -/
theorem claim_C6 (f : TasksFile) :
    ∀ t ds, (t, ds) ∈ f.get_blocked_tasks ↔
      (t ∈ f.tasks ∧ t.completed = false ∧ ds ≠ [] ∧
        ds = t.depends.filter (depUnsatisfied f) ∧
        ∀ d ∈ ds, f.get_task_by_id d = none ∨
          ∃ u, f.get_task_by_id d = some u ∧ u.completed = false) := by
  intro t ds
  rw [mem_blocked_iff]
  constructor
  · rintro ⟨h1, h2, h3, h4⟩
    refine ⟨h1, h2, h4, h3, ?_⟩
    intro d hd
    rw [h3] at hd
    have h5 : depSatisfied f d = false := by
      have h6 := List.of_mem_filter hd
      rw [depUnsatisfied_eq_not] at h6
      simpa using h6
    cases hg : f.get_task_by_id d with
    | none => exact Or.inl rfl
    | some u =>
      right
      refine ⟨u, rfl, ?_⟩
      rw [depSatisfied, hg] at h5
      simpa using h5
  · rintro ⟨h1, h2, h3, h4, _⟩
    exact ⟨h1, h2, h4, h3⟩

/-- C7: whenever some id repeats, `validate` fails with the duplicate-id
error naming the first repeated id in collection order, regardless of any
dangling references or cycles also present (the uniqueness check runs first
and short-circuits validation). -/
theorem claim_C7 (f : TasksFile) (init : List String) (pre : List Task) (t : Task)
    (post : List Task) (hsplit : f.tasks = pre ++ t :: post)
    (hfirst : (pre.map (fun u => u.id)).Nodup)
    (hdup : t.id ∈ pre.map (fun u => u.id)) :
    f.validate init = some (Except.error ("Duplicate task ID: " ++ t.id)) := by
  have h1 : f.check_unique_ids = Except.error ("Duplicate task ID: " ++ t.id) := by
    rw [TasksFile.check_unique_ids, hsplit]
    exact uniqueGo_error pre [] (by simpa using hfirst) (by simpa using hdup)
  exact validate_error_unique h1 init

/-- Witness for C7 on two tasks sharing the id `a`. -/
theorem claim_C7_witness :
    exDup.validate [] = some (Except.error ("Duplicate task ID: " ++ taskA2.id)) :=
  claim_C7 exDup [] [taskA] taskA2 [] rfl (by decide) (by decide)

/-- C8: on a graph with unique ids, the first task (in collection order)
whose `depends` list names a missing id makes `validate` fail with the
dangling-dependency error naming that task and its first missing
dependency. -/
theorem claim_C8 (f : TasksFile) (init : List String) (pre : List Task) (t : Task)
    (post : List Task) (dpre : List String) (d : String) (dpost : List String)
    (hU : f.ids.Nodup)
    (hsplit : f.tasks = pre ++ t :: post)
    (hpre : ∀ u ∈ pre, ∀ x ∈ u.depends, x ∈ f.ids)
    (hdeps : t.depends = dpre ++ d :: dpost)
    (hdpre : ∀ x ∈ dpre, x ∈ f.ids)
    (hd : d ∉ f.ids) :
    f.validate init = some (Except.error
      ("Task \x27" ++ t.id ++ "\x27 depends on non-existent task \x27" ++ d ++ "\x27")) := by
  have h1 : f.check_dependency_refs = Except.error
      ("Task \x27" ++ t.id ++ "\x27 depends on non-existent task \x27" ++ d ++ "\x27") := by
    rw [TasksFile.check_dependency_refs, hsplit]
    exact depsGo_error hdeps hdpre hd pre hpre
  exact validate_error_deps (check_unique_ids_ok_iff.mpr hU) h1 init

/-- Witness for C8 on a graph whose second task depends on a missing id. -/
theorem claim_C8_witness :
    exDangle2.validate [] = some (Except.error
      ("Task \x27" ++ taskDg.id ++ "\x27 depends on non-existent task \x27"
        ++ "zzz" ++ "\x27")) :=
  claim_C8 exDangle2 [] [taskA] taskDg [] [] "zzz" [] (by decide) rfl (by decide) rfl
    (by decide) (by decide)

/-- C9: permuting a task's `depends` list or adding duplicate entries (any
change keeping each list's members, ids, titles and completion flags)
changes neither the success of `validate`, nor the set of ready task ids,
nor the set of blocked task ids. -/
theorem claim_C9 (f g : TasksFile) (initf initg : List String)
    (hsim : FileSim f g) (hf : initf.Perm f.zeroKeys) (hg : initg.Perm g.zeroKeys) :
    (f.validate initf = some (Except.ok ()) ↔ g.validate initg = some (Except.ok ())) ∧
    (∀ x, (∃ t, t ∈ f.get_ready_tasks ∧ t.id = x) ↔
      (∃ u, u ∈ g.get_ready_tasks ∧ u.id = x)) ∧
    (∀ x, (∃ t ds, (t, ds) ∈ f.get_blocked_tasks ∧ t.id = x) ↔
      (∃ u ds, (u, ds) ∈ g.get_blocked_tasks ∧ u.id = x)) := by
  refine ⟨validate_ok_iff_of_sim hsim hf hg, ?_, ?_⟩
  · intro x
    exact ⟨ready_sim_mp hsim, ready_sim_mp (fileSim_symm hsim)⟩
  · intro x
    exact ⟨blocked_sim_mp hsim, blocked_sim_mp (fileSim_symm hsim)⟩

theorem exChain_sim_dup : FileSim exChain exChainDup := by
  refine List.Forall₂.cons ?_ (List.Forall₂.cons ?_ List.Forall₂.nil)
  · exact ⟨rfl, rfl, rfl, fun d => Iff.rfl⟩
  · refine ⟨rfl, rfl, rfl, ?_⟩
    intro d
    constructor
    · intro h
      simp only [taskB, List.mem_singleton] at h
      simp [taskB2, h]
    · intro h
      simp only [taskB2, List.mem_cons, List.not_mem_nil, or_false, or_self] at h
      simp [taskB, h]

/-- Witness for C9: the chain `a ← b` against the same chain with `b`'s
dependency list duplicated to `[a, a]`. -/
theorem claim_C9_witness :
    (exChain.validate ["a"] = some (Except.ok ())
      ↔ exChainDup.validate ["a"] = some (Except.ok ())) ∧
    (∀ x, (∃ t, t ∈ exChain.get_ready_tasks ∧ t.id = x) ↔
      (∃ u, u ∈ exChainDup.get_ready_tasks ∧ u.id = x)) ∧
    (∀ x, (∃ t ds, (t, ds) ∈ exChain.get_blocked_tasks ∧ t.id = x) ↔
      (∃ u ds, (u, ds) ∈ exChainDup.get_blocked_tasks ∧ u.id = x)) :=
  claim_C9 exChain exChainDup ["a"] ["a"] exChain_sim_dup (by decide) (by decide)

/-- C10: on every graph the ready and blocked views partition the
not-completed tasks — a completed task appears in neither view, and a
not-completed task is in the ready view exactly when it has no entry in the
blocked view. -/
theorem claim_C10 (f : TasksFile) (t : Task) :
    (t ∈ f.tasks ∧ t.completed = true →
      t ∉ f.get_ready_tasks ∧ ∀ ds, (t, ds) ∉ f.get_blocked_tasks) ∧
    (t ∈ f.tasks ∧ t.completed = false →
      (t ∈ f.get_ready_tasks ↔ ¬ ∃ ds, (t, ds) ∈ f.get_blocked_tasks)) := by
  constructor
  · rintro ⟨ht, hc⟩
    constructor
    · intro hr
      rw [mem_ready_iff] at hr
      rw [hr.2.1] at hc
      exact Bool.noConfusion hc
    · intro ds hb
      rw [mem_blocked_iff] at hb
      rw [hb.2.1] at hc
      exact Bool.noConfusion hc
  · rintro ⟨ht, hc⟩
    rw [mem_ready_iff]
    constructor
    · rintro ⟨_, _, hsat⟩ ⟨ds, hb⟩
      rw [mem_blocked_iff] at hb
      obtain ⟨_, _, hds, hne⟩ := hb
      apply hne
      rw [hds, ← all_sat_iff_unsat_nil]
      intro d hd
      exact depSatisfied_iff.mpr (hsat d hd)
    · intro hnb
      refine ⟨ht, hc, ?_⟩
      intro d hd
      apply depSatisfied_iff.mp
      by_contra hns
      apply hnb
      refine ⟨t.depends.filter (depUnsatisfied f), ?_⟩
      rw [mem_blocked_iff]
      refine ⟨ht, hc, rfl, ?_⟩
      intro hnil
      exact hns ((all_sat_iff_unsat_nil t).mpr hnil d hd)

end LazyAgent
